import Mathlib

/-!
Verification of the `canary` certificate-transparency phishing detector's
rule engine against its natural-language specification.

The Go sources are embedded shallowly:

* `internal/rules/types.go` — the `Expression` AST, `Rule`, `Engine`,
  `RuleMatch` records and the AST methods `Evaluate`, `ExtractKeywords`,
  `ExtractPositiveKeywords`.
* the expression parser (`Parse`, `tokenize`, `parseOr`, `parseAnd`,
  `parseNot`, `parsePrimary`).
* `internal/rules/evaluator.go` — `Engine.Evaluate`, `SortRulesByPriority`,
  `priorityOrder`, `ValidatePriority`, `ExtractAllKeywords`,
  `BuildAhoCorasick`, `Find`.
* the rule loader (`LoadRules`, `parseRule`).
* the webhook handler `Hook`, the reload handler `ReloadRules`, and the
  partition store (`CreatePartitionTable` schema, `storeSingleTable`).

Modelling conventions:

* Go strings are Lean `String`; `strings.ToLower` is modelled per-`Char`
  (`Char.toLower`), which agrees with Go on the ASCII inputs of the rules.
* A Go `map[string]bool` used as a set is modelled as a `List String` with
  membership lookup (`List.contains`); Go's randomized map iteration order
  is modelled as first-insertion order.  Every property stated below is
  insensitive to that order.
* The third-party Aho-Corasick machine (`Machine.MultiPatternSearch`) is
  modelled by its documented semantics: it reports exactly the dictionary
  words that occur as literal substrings of the searched text.
* Fallible Go functions returning `(T, error)` become `Except String T`.
-/

namespace Canary

/-- Substring test: `hasPfx needle hay` is true iff `needle` is a prefix of
`hay` (empty needle included).  Helper for the Go `strings.Contains`. -/
def hasPfx : List Char → List Char → Bool
  | [], _ => true
  | _ :: _, [] => false
  | a :: as, b :: bs => a == b && hasPfx as bs

/-- Helper scanning every suffix of the haystack for the needle. -/
def containsAux (needle : List Char) : List Char → Bool
  | [] => needle.isEmpty
  | c :: rest => hasPfx needle (c :: rest) || containsAux needle rest

/-- Go `strings.Contains(hay, needle)`: literal substring occurrence. -/
def strContains (hay needle : String) : Bool :=
  containsAux needle.data hay.data

/-- Go `strings.ToLower`, restricted to the per-character ASCII case map
(the rule keywords and domains in this repository are ASCII). -/
def lowerStr (s : String) : String :=
  String.mk (s.data.map Char.toLower)

/-- Priority is a string type in Go (`type Priority string`). -/
abbrev Priority := String

/-- Constant `PriorityCritical` from types.go. -/
def PriorityCritical : Priority := "critical"

/-- Constant `PriorityHigh` from types.go. -/
def PriorityHigh : Priority := "high"

/-- Constant `PriorityMedium` from types.go. -/
def PriorityMedium : Priority := "medium"

/-- Constant `PriorityLow` from types.go. -/
def PriorityLow : Priority := "low"

/-- Expression AST from types.go: `KeywordExpr`, `AndExpr`, `OrExpr`,
`NotExpr` implementing the `Expression` interface. -/
inductive Expression where
  | KeywordExpr (Keyword : String)
  | AndExpr (Left Right : Expression)
  | OrExpr (Left Right : Expression)
  | NotExpr (E : Expression)
deriving DecidableEq, Repr

/-- Method `Evaluate(keywords map[string]bool) bool` of the four AST nodes:
keyword lookup, short-circuit and/or, negation.  The keyword set is the
list of keys mapped to `true`. -/
def Expression.Evaluate : Expression → List String → Bool
  | .KeywordExpr k, s => s.contains k
  | .AndExpr l r, s => l.Evaluate s && r.Evaluate s
  | .OrExpr l r, s => l.Evaluate s || r.Evaluate s
  | .NotExpr e, s => !(e.Evaluate s)

/-- Method `ExtractKeywords` of the AST nodes: all leaf keywords, in
left-to-right order (Go appends left then right). -/
def Expression.ExtractKeywords : Expression → List String
  | .KeywordExpr k => [k]
  | .AndExpr l r => l.ExtractKeywords ++ r.ExtractKeywords
  | .OrExpr l r => l.ExtractKeywords ++ r.ExtractKeywords
  | .NotExpr e => e.ExtractKeywords

/-- Method `ExtractPositiveKeywords` of the AST nodes: like
`ExtractKeywords` but `NotExpr` contributes the empty list. -/
def Expression.ExtractPositiveKeywords : Expression → List String
  | .KeywordExpr k => [k]
  | .AndExpr l r => l.ExtractPositiveKeywords ++ r.ExtractPositiveKeywords
  | .OrExpr l r => l.ExtractPositiveKeywords ++ r.ExtractPositiveKeywords
  | .NotExpr _ => []

/-- Record `Rule` from types.go. -/
structure Rule where
  Name : String
  Expr : Expression
  Keywords : String
  Priority : Priority
  Enabled : Bool
  Order : Nat
  Comment : String
deriving DecidableEq, Repr

/-- Record `RuleMatch` from types.go. -/
structure RuleMatch where
  RuleName : String
  Priority : Priority
  Keywords : List String
deriving DecidableEq, Repr

/-- Record `Engine` from types.go.  The Aho-Corasick `Machine` is modelled
by its dictionary (the list of patterns it was built from). -/
structure Engine where
  Rules : List Rule
  Machine : List String
  Keywords : List String
deriving DecidableEq, Repr

/-- Function `priorityOrder` from evaluator.go: sort key, lower = higher
priority, unknown strings map to 4. -/
def priorityOrder (p : Priority) : Nat :=
  if p = PriorityCritical then 0
  else if p = PriorityHigh then 1
  else if p = PriorityMedium then 2
  else if p = PriorityLow then 3
  else 4

/-- Function `ValidatePriority` from evaluator.go: normalize a priority
string, defaulting to `medium`. -/
def ValidatePriority (p : String) : Priority :=
  if p = PriorityCritical then PriorityCritical
  else if p = PriorityHigh then PriorityHigh
  else if p = PriorityMedium then PriorityMedium
  else if p = PriorityLow then PriorityLow
  else PriorityMedium

/-- Function `NewEmptyEngine` from evaluator.go. -/
def NewEmptyEngine : Engine :=
  { Rules := [], Machine := [], Keywords := [] }

/-- Insertion into a Go `map[string]bool`-as-set, keeping first-insertion
order for the subsequent iteration. -/
def insertUniq (acc : List String) (s : String) : List String :=
  if acc.contains s then acc else acc ++ [s]

/-- Method `Engine.ExtractAllKeywords` from evaluator.go: the deduplicated
union of lower-cased positive keywords over ALL rules (the loop has no
`Enabled` check). -/
def Engine.ExtractAllKeywords (e : Engine) : List String :=
  e.Rules.foldl
    (fun acc rule => (rule.Expr.ExtractPositiveKeywords.map lowerStr).foldl insertUniq acc) []

/-- Method `Engine.BuildAhoCorasick` from evaluator.go: store the extracted
keywords and build the automaton from them.  The library build step fails
only on an empty dictionary, which the preceding guard excludes, so it is
modelled as always succeeding. -/
def Engine.BuildAhoCorasick (e : Engine) : Except String Engine :=
  let kws := e.ExtractAllKeywords
  if kws.isEmpty then .error "no keywords found in rules"
  else .ok { e with Keywords := kws, Machine := kws }

/-- Method `Engine.Find` from evaluator.go: for each non-empty domain,
lower-case it and collect every machine pattern occurring in it as a
substring, deduplicated across domains. -/
def Engine.Find (e : Engine) (domains : List String) : List String :=
  domains.foldl
    (fun acc domain =>
      if domain = "" then acc
      else
        let lowered := lowerStr domain
        (e.Machine.filter (fun w => strContains lowered w)).foldl insertUniq acc)
    []

/-- Loop body of `Engine.Evaluate` from evaluator.go, one iteration per
rule.  The Go per-rule map `ruleKeywordSet` (copy of the matched-keyword
set plus the NOT-keywords observed as substrings of some lower-cased
domain) is modelled as list concatenation; Go fills the observed
NOT-keywords domain-major, which yields the same set. -/
def evalRules (matchedKeywords domains : List String) : List Rule → Option RuleMatch
  | [] => none
  | rule :: rest =>
    if !rule.Enabled then evalRules matchedKeywords domains rest
    else
      let allRuleKeywords := rule.Expr.ExtractKeywords
      let positiveRuleKeywords := rule.Expr.ExtractPositiveKeywords
      let positiveSet := positiveRuleKeywords.map lowerStr
      let notKeywords := (allRuleKeywords.map lowerStr).filter (fun kw => !positiveSet.contains kw)
      let ruleKeywordSet := matchedKeywords ++
        notKeywords.filter (fun notKw => domains.any (fun d => strContains (lowerStr d) notKw))
      if rule.Expr.Evaluate ruleKeywordSet then
        some { RuleName := rule.Name, Priority := rule.Priority, Keywords := matchedKeywords }
      else evalRules matchedKeywords domains rest

/-- Method `Engine.Evaluate` from evaluator.go: early return on an empty
rule list or empty matched-keyword list, then first-match-wins loop. -/
def Engine.Evaluate (e : Engine) (matchedKeywords domains : List String) : Option RuleMatch :=
  if e.Rules.isEmpty || matchedKeywords.isEmpty then none
  else evalRules matchedKeywords domains e.Rules

/-- Helper `peek` of the Go `tokenStream`: empty string at end of input. -/
def peek : List String → String
  | [] => ""
  | t :: _ => t

/-- Accumulator-based body of `tokenize`: `current` holds the pending token
in reverse. -/
def tokenizeAux : List Char → List Char → List String
  | current, [] => if current.isEmpty then [] else [String.mk current.reverse]
  | current, c :: rest =>
    if c = '(' || c = ')' then
      (if current.isEmpty then [] else [String.mk current.reverse]) ++
        String.mk [c] :: tokenizeAux [] rest
    else if c = ' ' || c = '\t' || c = '\n' then
      (if current.isEmpty then [] else [String.mk current.reverse]) ++ tokenizeAux [] rest
    else
      tokenizeAux (c :: current) rest

/-- Whitespace predicate of `strings.TrimSpace`, restricted to the ASCII
space characters. -/
def isSpaceGo (c : Char) : Bool :=
  c = ' ' || c = '\t' || c = '\n' || c = '\r'

/-- Go `strings.TrimSpace`: drop leading and trailing whitespace. -/
def trimSpace (s : String) : String :=
  String.mk (((s.data.dropWhile isSpaceGo).reverse.dropWhile isSpaceGo).reverse)

/-- Function `tokenize` from the parser: trim, then split on whitespace and
parentheses (parentheses are tokens of their own). -/
def tokenize (expr : String) : List String :=
  tokenizeAux [] (trimSpace expr).data

mutual

/-- Function `parseOr` from the parser (lowest precedence level).  The Go
token stream is modelled by passing the remaining token list; the
recursion carries fuel because the grammar recurses through parentheses
(Go relies on stream progress for termination). -/
def parseOr : Nat → List String → Except String (Expression × List String)
  | 0, _ => .error "parse fuel exhausted"
  | fuel + 1, toks =>
    match parseAnd fuel toks with
    | .error e => .error e
    | .ok (left, rest) => parseOrLoop fuel left rest

/-- Loop `for stream.peek() == "OR"` inside `parseOr`. -/
def parseOrLoop : Nat → Expression → List String → Except String (Expression × List String)
  | 0, _, _ => .error "parse fuel exhausted"
  | fuel + 1, left, toks =>
    if peek toks = "OR" then
      match parseAnd fuel toks.tail with
      | .error e => .error e
      | .ok (right, rest) => parseOrLoop fuel (.OrExpr left right) rest
    else .ok (left, toks)

/-- Function `parseAnd` from the parser. -/
def parseAnd : Nat → List String → Except String (Expression × List String)
  | 0, _ => .error "parse fuel exhausted"
  | fuel + 1, toks =>
    match parseNot fuel toks with
    | .error e => .error e
    | .ok (left, rest) => parseAndLoop fuel left rest

/-- Loop `for stream.peek() == "AND"` inside `parseAnd`. -/
def parseAndLoop : Nat → Expression → List String → Except String (Expression × List String)
  | 0, _, _ => .error "parse fuel exhausted"
  | fuel + 1, left, toks =>
    if peek toks = "AND" then
      match parseNot fuel toks.tail with
      | .error e => .error e
      | .ok (right, rest) => parseAndLoop fuel (.AndExpr left right) rest
    else .ok (left, toks)

/-- Function `parseNot` from the parser: right-associative stacking of
`NOT`. -/
def parseNot : Nat → List String → Except String (Expression × List String)
  | 0, _ => .error "parse fuel exhausted"
  | fuel + 1, toks =>
    if peek toks = "NOT" then
      match parseNot fuel toks.tail with
      | .error e => .error e
      | .ok (e, rest) => .ok (.NotExpr e, rest)
    else parsePrimary fuel toks

/-- Function `parsePrimary` from the parser: parenthesized group or a
keyword leaf, lower-cased, rejecting keywords containing parentheses. -/
def parsePrimary : Nat → List String → Except String (Expression × List String)
  | 0, _ => .error "parse fuel exhausted"
  | fuel + 1, toks =>
    let token := peek toks
    if token = "" then .error "unexpected end of expression"
    else if token = "(" then
      match parseOr fuel toks.tail with
      | .error e => .error e
      | .ok (e, rest) =>
        if peek rest = ")" then .ok (e, rest.tail)
        else .error ("expected closing paren, got " ++ peek rest)
    else if token = ")" then .error "unexpected closing paren"
    else if token.data.any (fun c => c = '(' || c = ')') then
      .error ("invalid keyword: " ++ token)
    else .ok (.KeywordExpr (lowerStr token), toks.tail)

end

/-- Function `Parse` from the parser: tokenize, parse an OR-expression,
require the stream to be exhausted.  The fuel bound exceeds the longest
possible chain of parser calls (three non-consuming levels per token plus
slack), so a fuel-exhaustion error is unreachable. -/
def Parse (expr : String) : Except String Expression :=
  let tokens := tokenize expr
  if tokens.isEmpty then .error "empty expression"
  else
    match parseOr (4 * tokens.length + 4) tokens with
    | .error e => .error e
    | .ok (result, rest) =>
      if rest.isEmpty then .ok result
      else .error ("unexpected token: " ++ peek rest)

section GoSort

/-!
`SortRulesByPriority` calls Go's `sort.Slice`, which since Go 1.19 is the
pattern-defeating quicksort of `sort/zsortfunc.go` (`pdqsort_func` and its
helpers), entered with `limit = bits.Len(uint(n))`.  The functions below
transcribe that algorithm.  Imperative index loops become fuel-based
recursion; every fuel bound strictly exceeds the iteration count of the
corresponding Go loop, so the fuel-exhaustion branches are unreachable.
Go `int` indices are `Nat`: every index manipulated below stays
non-negative in Go (loop guards stop at the lower bounds first), and the
two places Go can form a negative intermediate (`(hi-1)/2` and the
`hi-1` countdown start, both with `hi = 0`) truncate to the same behavior
as Nat subtraction does.
-/

variable {α : Type} [Inhabited α]

/-- Array read with the panic of a Go out-of-range access replaced by a
default; all accesses made by the sort are in range. -/
def aget (xs : Array α) (i : Nat) : α :=
  xs.getD i default

/-- Array swap (`data.Swap(i, j)`), written as two `set`s; out-of-range is
the identity (never hit by the sort). -/
def swapA (xs : Array α) (i j : Nat) : Array α :=
  if h1 : i < xs.size then
    if h2 : j < xs.size then
      (xs.set ⟨i, h1⟩ xs[j]).set ⟨j, by simpa using h2⟩ xs[i]
    else xs
  else xs

/-- Comparison `data.Less(i, j)` of the `lessSwap` wrapper: compare the
current elements at the two indices. -/
def lessAt (lt : α → α → Bool) (xs : Array α) (i j : Nat) : Bool :=
  lt (aget xs i) (aget xs j)

/-- Inner loop of `insertionSort_func`: sift index `j` down while it is
less than its left neighbor and above `a`. -/
def insInner (lt : α → α → Bool) (a : Nat) : Array α → Nat → Array α
  | xs, 0 => xs
  | xs, j + 1 =>
    if a < j + 1 && lessAt lt xs (j + 1) j then insInner lt a (swapA xs (j + 1) j) j
    else xs

/-- Function `insertionSort_func` on the range `[a, b)`. -/
def insertionSortF (lt : α → α → Bool) (xs : Array α) (a b : Nat) : Array α :=
  (List.range' (a + 1) (b - (a + 1))).foldl (fun ys i => insInner lt a ys i) xs

/-- Loop of `siftDown_func`; the fuel dominates `hi`, the bound on the
doubling `root`. -/
def siftDownGo (lt : α → α → Bool) (hi first : Nat) : Array α → Nat → Nat → Array α
  | xs, _, 0 => xs
  | xs, root, fuel + 1 =>
    let child := 2 * root + 1
    if hi ≤ child then xs
    else
      let child := if child + 1 < hi && lessAt lt xs (first + child) (first + child + 1) then
        child + 1 else child
      if !(lessAt lt xs (first + root) (first + child)) then xs
      else siftDownGo lt hi first (swapA xs (first + root) (first + child)) child fuel

/-- Function `siftDown_func`. -/
def siftDownF (lt : α → α → Bool) (xs : Array α) (lo hi first : Nat) : Array α :=
  siftDownGo lt hi first xs lo (hi + 1)

/-- Function `heapSort_func` on the range `[a, b)`: heapify from the middle
down, then repeatedly swap the maximum to the end and re-sift. -/
def heapSortF (lt : α → α → Bool) (xs : Array α) (a b : Nat) : Array α :=
  let first := a
  let hi := b - a
  let xs := ((List.range ((hi - 1) / 2 + 1)).reverse).foldl
    (fun ys i => siftDownF lt ys i hi first) xs
  ((List.range hi).reverse).foldl
    (fun ys i => siftDownF lt (swapA ys first (first + i)) 0 i first) xs

/-- Function `order2_func`: order two indices by their elements, counting a
swap. -/
def order2 (lt : α → α → Bool) (xs : Array α) (a b swaps : Nat) : Nat × Nat × Nat :=
  if lessAt lt xs b a then (b, a, swaps + 1) else (a, b, swaps)

/-- Function `median_func`: index of the median of three elements, with the
accumulated swap count. -/
def medianOf (lt : α → α → Bool) (xs : Array α) (a b c swaps : Nat) : Nat × Nat :=
  match order2 lt xs a b swaps with
  | (a1, b1, s1) =>
    match order2 lt xs b1 c s1 with
    | (b2, _, s2) =>
      match order2 lt xs a1 b2 s2 with
      | (_, b3, s3) => (b3, s3)

/-- Function `medianAdjacent_func`: median of an index and its two
neighbors. -/
def medianAdjacent (lt : α → α → Bool) (xs : Array α) (a swaps : Nat) : Nat × Nat :=
  medianOf lt xs (a - 1) a (a + 1) swaps

/-- Sortedness hints of the Go implementation. -/
inductive Hint where
  | unknown
  | increasing
  | decreasing
deriving DecidableEq, Repr

/-- Mapping from the swap count of pivot selection to a hint
(`maxSwaps = 4 * 3`). -/
def hintOf (swaps : Nat) : Hint :=
  if swaps = 0 then .increasing
  else if swaps = 12 then .decreasing
  else .unknown

/-- Function `choosePivot_func`: median (or ninther-median for long
ranges) of the quartile positions of `[a, b)`. -/
def choosePivot (lt : α → α → Bool) (xs : Array α) (a b : Nat) : Nat × Hint :=
  let l := b - a
  let i := a + l / 4 * 1
  let j := a + l / 4 * 2
  let k := a + l / 4 * 3
  if 8 ≤ l then
    if 50 ≤ l then
      match medianAdjacent lt xs i 0 with
      | (i, s1) =>
        match medianAdjacent lt xs j s1 with
        | (j, s2) =>
          match medianAdjacent lt xs k s2 with
          | (k, s3) =>
            match medianOf lt xs i j k s3 with
            | (j, s4) => (j, hintOf s4)
    else
      match medianOf lt xs i j k 0 with
      | (j, s) => (j, hintOf s)
  else (j, hintOf 0)

/-- Loop of `reverseRange_func`. -/
def revGo : Array α → Nat → Nat → Nat → Array α
  | xs, _, _, 0 => xs
  | xs, i, j, fuel + 1 => if i < j then revGo (swapA xs i j) (i + 1) (j - 1) fuel else xs

/-- Function `reverseRange_func` on `[a, b)`. -/
def reverseRangeF (xs : Array α) (a b : Nat) : Array α :=
  revGo xs a (b - 1) (b - a)

/-- State step of the `xorshift` generator of the sort package, on
`uint64` values modelled as naturals below `2^64`. -/
def xorshiftNext (r : Nat) : Nat :=
  let r := (Nat.xor r (r <<< 13)) % 2 ^ 64
  let r := Nat.xor r (r >>> 17)
  (Nat.xor r (r <<< 5)) % 2 ^ 64

/-- Helper for `bits.Len`, recursing on a fuel that dominates the bit
length (`bitsLen n ≤ n` for every `n`). -/
def bitsLenAux : Nat → Nat → Nat
  | _, 0 => 0
  | n, fuel + 1 => if n = 0 then 0 else bitsLenAux (n / 2) fuel + 1

/-- Go `bits.Len(uint(n))`: the minimum number of bits representing `n`,
zero for zero. -/
def bitsLen (n : Nat) : Nat :=
  bitsLenAux n n

/-- Function `nextPowerOfTwo` of the sort package:
`1 << bits.Len(uint(length))`. -/
def nextPowerOfTwo (length : Nat) : Nat :=
  2 ^ bitsLen length

/-- Loop `for i := 0; i < 3; i++` of `breakPatterns_func`, carrying the
xorshift state. -/
def breakGo (a idx length modulus : Nat) : Array α → Nat → Nat → Nat → Array α
  | xs, _, _, 0 => xs
  | xs, random, i, fuel + 1 =>
    if i < 3 then
      let random := xorshiftNext random
      let other := Nat.land random (modulus - 1)
      let other := if length ≤ other then other - length else other
      breakGo a idx length modulus (swapA xs (idx - 1 + i) (a + other)) random (i + 1) fuel
    else xs

/-- Function `breakPatterns_func`: perturb three slots around the middle
of `[a, b)` with xorshift-chosen partners (seeded with the length). -/
def breakPatternsF (xs : Array α) (a b : Nat) : Array α :=
  let length := b - a
  if 8 ≤ length then
    let modulus := nextPowerOfTwo length
    let idx := a + length / 4 * 2 - 1
    breakGo a idx length modulus xs length 0 3
  else xs

/-- Scan of `partition_func` moving `i` right past elements less than the
pivot (stored at `aIdx`). -/
def scanUpGo (lt : α → α → Bool) (xs : Array α) (aIdx j : Nat) : Nat → Nat → Nat
  | i, 0 => i
  | i, fuel + 1 =>
    if i ≤ j && lessAt lt xs i aIdx then scanUpGo lt xs aIdx j (i + 1) fuel else i

/-- Scan of `partition_func` moving `j` left past elements not less than
the pivot. -/
def scanDownGo (lt : α → α → Bool) (xs : Array α) (aIdx i : Nat) : Nat → Nat → Nat
  | j, 0 => j
  | j, fuel + 1 =>
    if i ≤ j && !(lessAt lt xs j aIdx) then scanDownGo lt xs aIdx i (j - 1) fuel else j

/-- Main loop of `partition_func` after the first scan round: keep
swapping out-of-place pairs until the cursors cross. -/
def partitionGo (lt : α → α → Bool) (aIdx : Nat) : Array α → Nat → Nat → Nat → Array α × Nat
  | xs, _, j, 0 => (xs, j)
  | xs, i, j, fuel + 1 =>
    let i := scanUpGo lt xs aIdx j i (j + 2 - i)
    let j := scanDownGo lt xs aIdx i j (j + 2)
    if j < i then (xs, j)
    else partitionGo lt aIdx (swapA xs i j) (i + 1) (j - 1) fuel

/-- Function `partition_func`: move the pivot to the front, partition
`[a+1, b)`, put the pivot at the split point; reports whether the range
was already partitioned. -/
def partitionF (lt : α → α → Bool) (xs : Array α) (a b pivot : Nat) : Array α × Nat × Bool :=
  let xs := swapA xs a pivot
  let i := a + 1
  let j := b - 1
  let i := scanUpGo lt xs a j i (j + 2 - i)
  let j := scanDownGo lt xs a i j (j + 2)
  if j < i then (swapA xs j a, j, true)
  else
    let xs := swapA xs i j
    let r := partitionGo lt a xs (i + 1) (j - 1) b
    (swapA r.1 r.2 a, r.2, false)

/-- Scan of `partitionEqual_func` moving `i` right past elements not
greater than the pivot. -/
def scanUpEqGo (lt : α → α → Bool) (xs : Array α) (aIdx j : Nat) : Nat → Nat → Nat
  | i, 0 => i
  | i, fuel + 1 =>
    if i ≤ j && !(lessAt lt xs aIdx i) then scanUpEqGo lt xs aIdx j (i + 1) fuel else i

/-- Scan of `partitionEqual_func` moving `j` left past elements greater
than the pivot. -/
def scanDownEqGo (lt : α → α → Bool) (xs : Array α) (aIdx i : Nat) : Nat → Nat → Nat
  | j, 0 => j
  | j, fuel + 1 =>
    if i ≤ j && lessAt lt xs aIdx j then scanDownEqGo lt xs aIdx i (j - 1) fuel else j

/-- Loop of `partitionEqual_func`. -/
def partitionEqGo (lt : α → α → Bool) (aIdx : Nat) : Array α → Nat → Nat → Nat → Array α × Nat
  | xs, i, _, 0 => (xs, i)
  | xs, i, j, fuel + 1 =>
    let i := scanUpEqGo lt xs aIdx j i (j + 2 - i)
    let j := scanDownEqGo lt xs aIdx i j (j + 2)
    if j < i then (xs, i)
    else partitionEqGo lt aIdx (swapA xs i j) (i + 1) (j - 1) fuel

/-- Function `partitionEqual_func`: move elements equal to the pivot to the
front of `[a, b)`, returning the first index past them. -/
def partitionEqualF (lt : α → α → Bool) (xs : Array α) (a b pivot : Nat) : Array α × Nat :=
  let xs := swapA xs a pivot
  partitionEqGo lt a xs (a + 1) (b - 1) b

/-- Cursor advance of `partialInsertionSort_func`: skip the sorted run. -/
def advanceI (lt : α → α → Bool) (xs : Array α) (b : Nat) : Nat → Nat → Nat
  | i, 0 => i
  | i, fuel + 1 =>
    if i < b && !(lessAt lt xs i (i - 1)) then advanceI lt xs b (i + 1) fuel else i

/-- Left shift loop of `partialInsertionSort_func` (`j` down to 1). -/
def shiftL (lt : α → α → Bool) : Array α → Nat → Nat → Array α
  | xs, _, 0 => xs
  | xs, j, fuel + 1 =>
    if 1 ≤ j then
      if !(lessAt lt xs j (j - 1)) then xs
      else shiftL lt (swapA xs j (j - 1)) (j - 1) fuel
    else xs

/-- Right shift loop of `partialInsertionSort_func` (`j` up to `b`). -/
def shiftR (lt : α → α → Bool) (b : Nat) : Array α → Nat → Nat → Array α
  | xs, _, 0 => xs
  | xs, j, fuel + 1 =>
    if j < b then
      if !(lessAt lt xs j (j - 1)) then xs
      else shiftR lt b (swapA xs j (j - 1)) (j + 1) fuel
    else xs

/-- Step loop of `partialInsertionSort_func` (`maxSteps = 5`,
`shortestShifting = 50`); returns the array and whether the range ended up
sorted. -/
def pInsSteps (lt : α → α → Bool) (a b : Nat) : Array α → Nat → Nat → Array α × Bool
  | xs, _, 0 => (xs, false)
  | xs, i, steps + 1 =>
    let i := advanceI lt xs b i b
    if i = b then (xs, true)
    else if b - a < 50 then (xs, false)
    else
      let xs := swapA xs i (i - 1)
      let xs := if 2 ≤ i - a then shiftL lt xs (i - 1) i else xs
      let xs := if 2 ≤ b - i then shiftR lt b xs (i + 1) b else xs
      pInsSteps lt a b xs i steps

/-- Function `partialInsertionSort_func`. -/
def pInsertionSortF (lt : α → α → Bool) (xs : Array α) (a b : Nat) : Array α × Bool :=
  pInsSteps lt a b xs (a + 1) 5

/-- Function `pdqsort_func` (`maxInsertion = 12`): insertion sort for
short ranges, heapsort once `limit` hits zero, otherwise pattern-breaking
partitioning with recursion on the shorter side and iteration on the
longer side.  The outer `for` loop and the recursion share the fuel. -/
def pdqsortGo (lt : α → α → Bool) :
    Array α → Nat → Nat → Nat → Bool → Bool → Nat → Array α
  | xs, _, _, _, _, _, 0 => xs
  | xs, a, b, limit, wasBalanced, wasPartitioned, fuel + 1 =>
    let length := b - a
    if length ≤ 12 then insertionSortF lt xs a b
    else if limit = 0 then heapSortF lt xs a b
    else
      let xs := if !wasBalanced then breakPatternsF xs a b else xs
      let limit := if !wasBalanced then limit - 1 else limit
      let pv := choosePivot lt xs a b
      let xs := if pv.2 = Hint.decreasing then reverseRangeF xs a b else xs
      let pivot := if pv.2 = Hint.decreasing then (b - 1) - (pv.1 - a) else pv.1
      let hint := if pv.2 = Hint.decreasing then Hint.increasing else pv.2
      let pi := if wasBalanced && wasPartitioned && hint = Hint.increasing then
        pInsertionSortF lt xs a b else (xs, false)
      let xs := pi.1
      if pi.2 then xs
      else if 0 < a && !(lessAt lt xs (a - 1) pivot) then
        let pe := partitionEqualF lt xs a b pivot
        pdqsortGo lt pe.1 pe.2 b limit wasBalanced wasPartitioned fuel
      else
        let pr := partitionF lt xs a b pivot
        let xs := pr.1
        let mid := pr.2.1
        let wasPartitioned := pr.2.2
        let leftLen := mid - a
        let rightLen := b - mid
        let balanceThreshold := length / 8
        let wasBalanced := balanceThreshold ≤ min leftLen rightLen
        if leftLen < rightLen then
          let xs := pdqsortGo lt xs a mid limit true true fuel
          pdqsortGo lt xs (mid + 1) b limit wasBalanced wasPartitioned fuel
        else
          let xs := pdqsortGo lt xs (mid + 1) b limit true true fuel
          pdqsortGo lt xs a mid limit wasBalanced wasPartitioned fuel

/-- Entry point corresponding to `sort.Slice`: `pdqsort_func(data, 0, n,
bits.Len(uint(n)))`. -/
def sortSlice (lt : α → α → Bool) (xs : Array α) : Array α :=
  pdqsortGo lt xs 0 xs.size (bitsLen xs.size) true true (3 * xs.size + 8)

end GoSort

/-- Comparison used by `SortRulesByPriority`:
`priorityOrder(rules[i].Priority) < priorityOrder(rules[j].Priority)`. -/
def ruleLess (x y : Rule) : Bool :=
  priorityOrder x.Priority < priorityOrder y.Priority

/-- Default rule value, for out-of-range array reads that the sort never
performs. -/
instance : Inhabited Rule :=
  ⟨{ Name := "", Expr := .KeywordExpr "", Keywords := "", Priority := "",
     Enabled := false, Order := 0, Comment := "" }⟩

/-- Function `SortRulesByPriority` from evaluator.go: `sort.Slice` by
`priorityOrder`, then reassign each rule's `Order` field to its new
index. -/
def SortRulesByPriority (rules : List Rule) : List Rule :=
  let sorted := (sortSlice ruleLess rules.toArray).toList
  sorted.enum.map (fun p => { p.2 with Order := p.1 })

/-- Record `RuleConfig` from the loader: one YAML rule entry. -/
structure RuleConfig where
  Name : String
  Keywords : String
  Priority : String
  Enabled : Bool
  Comment : String
deriving DecidableEq, Repr

/-- Function `parseRule` from the loader: validate name and keywords,
parse the expression, normalize the priority. -/
def parseRule (config : RuleConfig) (index : Nat) : Except String Rule :=
  if config.Name = "" then .error "rule name is required"
  else if config.Keywords = "" then .error "keywords are required"
  else
    match Parse config.Keywords with
    | .error e => .error ("failed to parse keywords: " ++ e)
    | .ok expr =>
      .ok { Name := config.Name, Expr := expr, Keywords := config.Keywords,
            Priority := ValidatePriority config.Priority, Enabled := config.Enabled,
            Order := index, Comment := config.Comment }

/-- Function `joinErrors` from the loader. -/
def joinErrors (errors : List String) : String :=
  errors.foldl (fun result e => result ++ "  - " ++ e ++ "\n") ""

/-- Function `LoadRules` from the loader.  The file system and the YAML
decoder are abstracted into the input: `none` is an absent rule file;
`some cfgs` is a present file whose YAML decoded to the entry list `cfgs`
(read errors other than non-existence and YAML syntax errors are outside
the claims).  Absent file: empty engine, no error.  Otherwise: parse each
rule collecting per-rule errors, fail if any; sort by priority; build the
automaton, propagating its error wrapped exactly as `fmt.Errorf` does. -/
def LoadRules (file : Option (List RuleConfig)) : Except String Engine :=
  match file with
  | none => .ok NewEmptyEngine
  | some ruleConfigs =>
    let results := ruleConfigs.enum.map (fun p => (p.1, p.2, parseRule p.2 p.1))
    let parseErrors := results.filterMap (fun r =>
      match r.2.2 with
      | .error e => some ("rule " ++ toString r.1 ++ " (" ++ r.2.1.Name ++ "): " ++ e)
      | .ok _ => none)
    let rules := results.filterMap (fun r => r.2.2.toOption)
    if !parseErrors.isEmpty then
      .error ("failed to parse rules:\n" ++ joinErrors parseErrors)
    else
      match Engine.BuildAhoCorasick
          { Rules := SortRulesByPriority rules, Machine := [], Keywords := [] } with
      | .error e => .error ("failed to build Aho-Corasick: " ++ e)
      | .ok engine => .ok engine

/-- Handler `ReloadRules`: outcome of one reload operation.  The atomic
engine reference `config.RuleEngine` is modelled by explicit state
passing: `published` is the engine reference before the call, the first
component of the result is the reference after it. -/
def ReloadRules (file : Option (List RuleConfig)) (published : Option Engine) :
    Option Engine × Nat :=
  match LoadRules file with
  | .error _ => (published, 500)
  | .ok engine => (some engine, 200)

/-- Webhook event from models (`CertspotterEvent`): `id`, issuance DNS
names and hashes, endpoint DNS names. -/
structure CertspotterEvent where
  ID : String
  DNSNames : List String
  TbsSha256 : String
  CertSha256 : String
  Endpoints : List String
deriving DecidableEq, Repr

/-- Domain collection step of `Hook`: issuance DNS names followed by the
non-empty endpoint DNS names. -/
def hookAllDomains (event : CertspotterEvent) : List String :=
  event.DNSNames ++ event.Endpoints.filter (fun d => !(d = ""))

/-- IDN expansion step of `Hook`: for each domain append, deduplicated in
insertion order, the domain itself, its `idna.ToASCII` form when it
converts without error to something different, and likewise its
`idna.ToUnicode` form.  The two converters are parameters (`none` models a
conversion error); the punycode algorithm itself is not needed by any
claim. -/
def expandDomains (toASCII toUnicode : String → Option String)
    (allDomains : List String) : List String :=
  allDomains.foldl
    (fun acc domain =>
      let acc := insertUniq acc domain
      let acc := match toASCII domain with
        | some ascii => if !(ascii = domain) then insertUniq acc ascii else acc
        | none => acc
      match toUnicode domain with
      | some uni => if !(uni = domain) then insertUniq acc uni else acc
      | none => acc)
    []

/-- Response of the `Hook` handler: HTTP status, the `matches` field of
the JSON body when one is produced (`status` is always `"ok"` there), and
whether a match record was published to the bus. -/
structure HookResult where
  status : Nat
  matchesVal : Option Nat
  published : Bool
deriving DecidableEq, Repr

/-- Handler `Hook`.  Inputs model the HTTP request (method, body decode
result — `none` for unreadable body or invalid JSON), the published
engine reference (`none` when no engine is loaded), the IDN converters,
and whether the match bus has a free slot.  Logging, debug output and the
performance counters have no bearing on the response and are omitted. -/
def Hook (method : String) (body : Option CertspotterEvent)
    (engine : Option Engine) (toASCII toUnicode : String → Option String)
    (busHasRoom : Bool) : HookResult :=
  if !(method = "POST") then { status := 405, matchesVal := none, published := false }
  else
    match body with
    | none => { status := 400, matchesVal := none, published := false }
    | some event =>
      let allDomains := expandDomains toASCII toUnicode (hookAllDomains event)
      match engine with
      | none => { status := 200, matchesVal := some 0, published := false }
      | some e =>
        let matchedKeywords := e.Find allDomains
        let published :=
          if !matchedKeywords.isEmpty then
            match e.Evaluate matchedKeywords allDomains with
            | some _ => busHasRoom
            | none => false
          else false
        { status := 200, matchesVal := some matchedKeywords.length, published := published }

/-- Row of a partition table, per the `CREATE TABLE` schema of
`CreatePartitionTable` (the `id` autoincrement column is the list
position). -/
structure MatchRow where
  certId : String
  keyword : String
  matchedRule : String
  priority : String
  domains : String
  tbsSha256 : String
  certSha256 : String
  timestamp : String
deriving DecidableEq, Repr

/-- Single `INSERT OR IGNORE` under the schema's `UNIQUE(cert_id,
keyword)` constraint: a row whose `(cert_id, keyword)` pair already
occurs in the partition is ignored, without error. -/
def insertOrIgnore (part : List MatchRow) (row : MatchRow) : List MatchRow :=
  if part.any (fun r => r.certId = row.certId && r.keyword = row.keyword) then part
  else part ++ [row]

/-- Function `storeSingleTable`: inserts all rows of the batch into one
partition inside a transaction, each with `INSERT OR IGNORE`.  The only
failure paths are database errors, so the success path is the fold of the
inserts. -/
def storeSingleTable (part : List MatchRow) (rows : List MatchRow) : List MatchRow :=
  rows.foldl insertOrIgnore part

/-- Number of rows of a partition carrying a given `(cert_id, keyword)`
pair. -/
def countPair (part : List MatchRow) (certId keyword : String) : Nat :=
  (part.filter (fun r => r.certId = certId && r.keyword = keyword)).length

/-- Specification-side restatement of §4.C Evaluate, step 1–2: the
rule-local evaluation set `E = P ∪ {observed NOT-keywords}`, where the
rule's NOT-keywords are `all_keywords − positive_keywords` of its
expression, lower-cased, and one is observed when it occurs as a literal
substring of some lower-cased domain of `D`. -/
def specRuleLocalSet (P D : List String) (r : Rule) : List String :=
  let positives := r.Expr.ExtractPositiveKeywords.map lowerStr
  let notKws := (r.Expr.ExtractKeywords.map lowerStr).filter (fun k => !positives.contains k)
  P ++ notKws.filter (fun n => D.any (fun d => strContains (lowerStr d) n))

/-- Specification-side restatement of §4.C Evaluate, steps 3–4: visit the
rules in engine order, skip disabled ones, return a `RuleMatch` with the
rule's name, its priority and the full positive set `P` for the first
rule whose AST evaluates true on its rule-local set, else `None`. -/
def EvaluateSpec (e : Engine) (P D : List String) : Option RuleMatch :=
  ((e.Rules.filter (fun r => r.Enabled)).find?
      (fun r => r.Expr.Evaluate (specRuleLocalSet P D r))).map
    (fun r => { RuleName := r.Name, Priority := r.Priority, Keywords := P })

/-- Specification-side notion (glossary): `appearsUnderNots e k n` holds
when keyword `k` is a leaf of `e` on a path crossing exactly `n` `Not`
nodes. -/
inductive appearsUnderNots : Expression → String → Nat → Prop where
  | kw (k : String) : appearsUnderNots (.KeywordExpr k) k 0
  | andL {l r : Expression} {k : String} {n : Nat} :
      appearsUnderNots l k n → appearsUnderNots (.AndExpr l r) k n
  | andR {l r : Expression} {k : String} {n : Nat} :
      appearsUnderNots r k n → appearsUnderNots (.AndExpr l r) k n
  | orL {l r : Expression} {k : String} {n : Nat} :
      appearsUnderNots l k n → appearsUnderNots (.OrExpr l r) k n
  | orR {l r : Expression} {k : String} {n : Nat} :
      appearsUnderNots r k n → appearsUnderNots (.OrExpr l r) k n
  | under {e : Expression} {k : String} {n : Nat} :
      appearsUnderNots e k n → appearsUnderNots (.NotExpr e) k (n + 1)

/-- Demonstration rule for the Evaluate refinement witness. -/
def demoRuleConfig : RuleConfig :=
  { Name := "login-watch", Keywords := "login AND NOT official",
    Priority := "high", Enabled := true, Comment := "" }

/-- Demonstration engine: `LoadRules` on a file holding `demoRuleConfig`
alone. -/
def demoEngine : Engine :=
  match LoadRules (some [demoRuleConfig]) with
  | .ok e => e
  | .error _ => NewEmptyEngine

/-- Production twitter rule of the regression suite, as a rule file
entry. -/
def twitterRuleConfig : RuleConfig :=
  { Name := "twitter_phish",
    Keywords := "(twitter OR x.com) AND (login OR signin OR verify OR suspended) AND NOT (twitter.com OR t.co)",
    Priority := "high", Enabled := true, Comment := "" }

/-- Engine built from the single enabled twitter rule. -/
def twitterEngine : Engine :=
  match LoadRules (some [twitterRuleConfig]) with
  | .ok e => e
  | .error _ => NewEmptyEngine

/-- Outcome of `Find` followed by `Evaluate` on a single-domain input, as
the webhook pipeline runs them. -/
def findThenEvaluate (e : Engine) (domain : String) : Option RuleMatch :=
  e.Evaluate (e.Find [domain]) [domain]

/-- Rule list exhibiting the instability of `sort.Slice`: thirteen enabled
rules `r0 … r12` whose priorities alternate `low, critical, low, …`. -/
def c4Rules : List Rule :=
  (List.range 13).map (fun i =>
    { Name := "r" ++ toString i, Expr := .KeywordExpr "k", Keywords := "k",
      Priority := if i % 2 = 0 then PriorityLow else PriorityCritical,
      Enabled := true, Order := i, Comment := "" })

/-- Rule file entry for a disabled rule on keyword `login`. -/
def disabledRuleConfig : RuleConfig :=
  { Name := "disabled-login", Keywords := "login", Priority := "low",
    Enabled := false, Comment := "" }

/-- Engine holding one disabled rule on keyword `login`; built by
`LoadRules`, whose keyword extraction does not consult `Enabled`. -/
def disabledEngine : Engine :=
  match LoadRules (some [disabledRuleConfig]) with
  | .ok e => e
  | .error _ => NewEmptyEngine

/-- Webhook event carrying one DNS name that hits the disabled rule's
keyword. -/
def disabledDemoEvent : CertspotterEvent :=
  { ID := "cert-1", DNSNames := ["login.example.com"], TbsSha256 := "",
    CertSha256 := "", Endpoints := [] }

/-! Helper lemmas.  The sort operates purely by swaps, so it cannot
introduce elements: each lemma below propagates membership back to the
input array. -/

section SortMem

variable {α : Type} [Inhabited α] {lt : α → α → Bool}

theorem mem_swapA {xs : Array α} {i j : Nat} {x : α} (h : x ∈ (swapA xs i j).toList) :
    x ∈ xs.toList := by
  unfold swapA at h
  split at h
  case isTrue h1 =>
    split at h
    case isTrue h2 =>
      rw [Array.toList_set, Array.toList_set] at h
      rcases List.mem_or_eq_of_mem_set h with h3 | h3
      · rcases List.mem_or_eq_of_mem_set h3 with h4 | h4
        · exact h4
        · exact h4 ▸ Array.getElem_mem_toList xs h2
      · exact h3 ▸ Array.getElem_mem_toList xs h1
    case isFalse h2 => exact h
  case isFalse h1 => exact h

theorem mem_foldl_of_step {β : Type} {step : Array α → β → Array α}
    (hstep : ∀ ys b x, x ∈ (step ys b).toList → x ∈ ys.toList) :
    ∀ (l : List β) (xs : Array α) (x : α), x ∈ (l.foldl step xs).toList → x ∈ xs.toList := by
  intro l
  induction l with
  | nil => intro xs x h; exact h
  | cons b t ih => intro xs x h; exact hstep _ _ _ (ih _ _ h)

theorem mem_insInner {a : Nat} :
    ∀ (j : Nat) (xs : Array α) (x : α), x ∈ (insInner lt a xs j).toList → x ∈ xs.toList := by
  intro j
  induction j with
  | zero => intro xs x h; exact h
  | succ j ih =>
    intro xs x h
    unfold insInner at h
    split at h
    · exact mem_swapA (ih _ _ h)
    · exact h

theorem mem_insertionSortF {xs : Array α} {a b : Nat} {x : α}
    (h : x ∈ (insertionSortF lt xs a b).toList) : x ∈ xs.toList :=
  mem_foldl_of_step (fun ys i x hx => mem_insInner i ys x hx) _ xs x h

theorem mem_siftDownGo {hi first : Nat} :
    ∀ (fuel root : Nat) (xs : Array α) (x : α),
      x ∈ (siftDownGo lt hi first xs root fuel).toList → x ∈ xs.toList := by
  intro fuel
  induction fuel with
  | zero => intro root xs x h; exact h
  | succ fuel ih =>
    intro root xs x h
    unfold siftDownGo at h
    dsimp only at h
    split at h
    · exact h
    · split at h
      · split at h
        · exact h
        · exact mem_swapA (ih _ _ _ h)
      · split at h
        · exact h
        · exact mem_swapA (ih _ _ _ h)

theorem mem_siftDownF {xs : Array α} {lo hi first : Nat} {x : α}
    (h : x ∈ (siftDownF lt xs lo hi first).toList) : x ∈ xs.toList :=
  mem_siftDownGo _ _ xs x h

theorem mem_heapSortF {xs : Array α} {a b : Nat} {x : α}
    (h : x ∈ (heapSortF lt xs a b).toList) : x ∈ xs.toList := by
  unfold heapSortF at h
  dsimp only at h
  exact mem_foldl_of_step (fun ys i x hx => mem_siftDownF hx) _ _ _
    (mem_foldl_of_step (fun ys i x hx => mem_swapA (mem_siftDownF hx)) _ _ _ h)

theorem mem_revGo :
    ∀ (fuel i j : Nat) (xs : Array α) (x : α), x ∈ (revGo xs i j fuel).toList → x ∈ xs.toList := by
  intro fuel
  induction fuel with
  | zero => intro i j xs x h; exact h
  | succ fuel ih =>
    intro i j xs x h
    unfold revGo at h
    split at h
    · exact mem_swapA (ih _ _ _ _ h)
    · exact h

theorem mem_reverseRangeF {xs : Array α} {a b : Nat} {x : α}
    (h : x ∈ (reverseRangeF xs a b).toList) : x ∈ xs.toList :=
  mem_revGo _ _ _ xs x h

theorem mem_breakGo {a idx length modulus : Nat} :
    ∀ (fuel random i : Nat) (xs : Array α) (x : α),
      x ∈ (breakGo a idx length modulus xs random i fuel).toList → x ∈ xs.toList := by
  intro fuel
  induction fuel with
  | zero => intro random i xs x h; exact h
  | succ fuel ih =>
    intro random i xs x h
    unfold breakGo at h
    dsimp only at h
    split at h
    · exact mem_swapA (ih _ _ _ _ h)
    · exact h

theorem mem_breakPatternsF {xs : Array α} {a b : Nat} {x : α}
    (h : x ∈ (breakPatternsF xs a b).toList) : x ∈ xs.toList := by
  unfold breakPatternsF at h
  dsimp only at h
  split at h
  · exact mem_breakGo _ _ _ _ x h
  · exact h

theorem mem_partitionGo {aIdx : Nat} :
    ∀ (fuel i j : Nat) (xs : Array α) (x : α),
      x ∈ (partitionGo lt aIdx xs i j fuel).1.toList → x ∈ xs.toList := by
  intro fuel
  induction fuel with
  | zero => intro i j xs x h; exact h
  | succ fuel ih =>
    intro i j xs x h
    unfold partitionGo at h
    dsimp only at h
    split at h
    · exact h
    · exact mem_swapA (ih _ _ _ _ h)

theorem mem_partitionF {xs : Array α} {a b pivot : Nat} {x : α}
    (h : x ∈ (partitionF lt xs a b pivot).1.toList) : x ∈ xs.toList := by
  unfold partitionF at h
  dsimp only at h
  split at h
  · exact mem_swapA (mem_swapA h)
  · exact mem_swapA (mem_swapA (mem_partitionGo _ _ _ _ x (mem_swapA h)))

theorem mem_partitionEqGo {aIdx : Nat} :
    ∀ (fuel i j : Nat) (xs : Array α) (x : α),
      x ∈ (partitionEqGo lt aIdx xs i j fuel).1.toList → x ∈ xs.toList := by
  intro fuel
  induction fuel with
  | zero => intro i j xs x h; exact h
  | succ fuel ih =>
    intro i j xs x h
    unfold partitionEqGo at h
    dsimp only at h
    split at h
    · exact h
    · exact mem_swapA (ih _ _ _ _ h)

theorem mem_partitionEqualF {xs : Array α} {a b pivot : Nat} {x : α}
    (h : x ∈ (partitionEqualF lt xs a b pivot).1.toList) : x ∈ xs.toList :=
  mem_swapA (mem_partitionEqGo _ _ _ _ x h)

theorem mem_shiftL :
    ∀ (fuel j : Nat) (xs : Array α) (x : α), x ∈ (shiftL lt xs j fuel).toList → x ∈ xs.toList := by
  intro fuel
  induction fuel with
  | zero => intro j xs x h; exact h
  | succ fuel ih =>
    intro j xs x h
    unfold shiftL at h
    split at h
    · split at h
      · exact h
      · exact mem_swapA (ih _ _ _ h)
    · exact h

theorem mem_shiftR {b : Nat} :
    ∀ (fuel j : Nat) (xs : Array α) (x : α),
      x ∈ (shiftR lt b xs j fuel).toList → x ∈ xs.toList := by
  intro fuel
  induction fuel with
  | zero => intro j xs x h; exact h
  | succ fuel ih =>
    intro j xs x h
    unfold shiftR at h
    split at h
    · split at h
      · exact h
      · exact mem_swapA (ih _ _ _ h)
    · exact h

theorem mem_pInsSteps {a b : Nat} :
    ∀ (steps i : Nat) (xs : Array α) (x : α),
      x ∈ (pInsSteps lt a b xs i steps).1.toList → x ∈ xs.toList := by
  intro steps
  induction steps with
  | zero => intro i xs x h; exact h
  | succ steps ih =>
    intro i xs x h
    unfold pInsSteps at h
    dsimp only at h
    split at h
    · exact h
    · split at h
      · exact h
      · have h2 := ih _ _ _ h
        split at h2
        · have h3 := mem_shiftR _ _ _ _ h2
          split at h3
          · exact mem_swapA (mem_shiftL _ _ _ _ h3)
          · exact mem_swapA h3
        · split at h2
          · exact mem_swapA (mem_shiftL _ _ _ _ h2)
          · exact mem_swapA h2

theorem mem_pInsertionSortF {xs : Array α} {a b : Nat} {x : α}
    (h : x ∈ (pInsertionSortF lt xs a b).1.toList) : x ∈ xs.toList :=
  mem_pInsSteps _ _ xs x h

set_option maxHeartbeats 2000000 in
theorem mem_pdqsortGo :
    ∀ (fuel : Nat) (xs : Array α) (a b limit : Nat) (wasBalanced wasPartitioned : Bool) (x : α),
      x ∈ (pdqsortGo lt xs a b limit wasBalanced wasPartitioned fuel).toList → x ∈ xs.toList := by
  intro fuel
  induction fuel with
  | zero => intro xs a b limit wb wp x h; exact h
  | succ fuel ih =>
    intro xs a b limit wb wp x h
    unfold pdqsortGo at h
    dsimp only at h
    split at h
    · exact mem_insertionSortF h
    · split at h
      · exact mem_heapSortF h
      · have g1 : ∀ y : α, y ∈ (if !wb then breakPatternsF xs a b else xs).toList →
            y ∈ xs.toList := by
          intro y hy
          split at hy
          · exact mem_breakPatternsF hy
          · exact hy
        generalize hA : (if !wb then breakPatternsF xs a b else xs) = A at h g1
        generalize hL : (if !wb then limit - 1 else limit) = L at h
        generalize hpv : choosePivot lt A a b = pv at h
        have g2 : ∀ y : α,
            y ∈ (if pv.2 = Hint.decreasing then reverseRangeF A a b else A).toList →
            y ∈ A.toList := by
          intro y hy
          split at hy
          · exact mem_reverseRangeF hy
          · exact hy
        generalize hB : (if pv.2 = Hint.decreasing then reverseRangeF A a b else A) = B at h g2
        generalize hpiv : (if pv.2 = Hint.decreasing then b - 1 - (pv.1 - a) else pv.1) = piv at h
        generalize hht : (if pv.2 = Hint.decreasing then Hint.increasing else pv.2) = ht at h
        have g3 : ∀ y : α,
            y ∈ (if wb && wp && decide (ht = Hint.increasing) then
              pInsertionSortF lt B a b else (B, false)).1.toList → y ∈ B.toList := by
          intro y hy
          split at hy
          · exact mem_pInsertionSortF hy
          · exact hy
        generalize hP : (if wb && wp && decide (ht = Hint.increasing) then
            pInsertionSortF lt B a b else (B, false)) = P at h g3
        have gP : ∀ y : α, y ∈ P.1.toList → y ∈ xs.toList := fun y hy => g1 y (g2 y (g3 y hy))
        split at h
        · exact gP x h
        · split at h
          · exact gP x (mem_partitionEqualF (ih _ _ _ _ _ _ _ h))
          · split at h
            · exact gP x (mem_partitionF (ih _ _ _ _ _ _ _ (ih _ _ _ _ _ _ _ h)))
            · exact gP x (mem_partitionF (ih _ _ _ _ _ _ _ (ih _ _ _ _ _ _ _ h)))

theorem mem_sortSlice {xs : Array α} {x : α}
    (h : x ∈ (sortSlice lt xs).toList) : x ∈ xs.toList :=
  mem_pdqsortGo _ xs _ _ _ _ _ x h

end SortMem

theorem expr_mem_SortRulesByPriority {rules : List Rule} {r : Rule}
    (h : r ∈ SortRulesByPriority rules) : ∃ r0 ∈ rules, r.Expr = r0.Expr := by
  unfold SortRulesByPriority at h
  dsimp only at h
  rcases List.mem_map.1 h with ⟨p, hp, hr⟩
  have h2 : p.2 ∈ (sortSlice ruleLess rules.toArray).toList :=
    List.snd_mem_of_mem_enum hp
  have h3 : p.2 ∈ rules.toArray.toList := mem_sortSlice h2
  rw [Array.toList_toArray] at h3
  exact ⟨p.2, h3, by rw [← hr]⟩

theorem insertUniq_ne_nil (acc : List String) (s : String) : insertUniq acc s ≠ [] := by
  unfold insertUniq
  split
  case isTrue h =>
    intro hc
    subst hc
    simp at h
  case isFalse h => simp

theorem foldl_insertUniq_eq_nil {l : List String} {acc : List String}
    (h : l.foldl insertUniq acc = []) : acc = [] ∧ l = [] := by
  induction l generalizing acc with
  | nil => exact ⟨h, rfl⟩
  | cons s t ih =>
    rcases @ih (insertUniq acc s) h with ⟨h1, _⟩
    exact absurd h1 (insertUniq_ne_nil acc s)

theorem extractAll_eq_nil {rs : List Rule} {m k : List String}
    (h : ∀ r ∈ rs, r.Expr.ExtractPositiveKeywords = []) :
    Engine.ExtractAllKeywords { Rules := rs, Machine := m, Keywords := k } = [] := by
  unfold Engine.ExtractAllKeywords
  dsimp only
  have key : ∀ (l : List Rule) (acc : List String),
      (∀ r ∈ l, r.Expr.ExtractPositiveKeywords = []) →
      l.foldl (fun acc rule =>
        (rule.Expr.ExtractPositiveKeywords.map lowerStr).foldl insertUniq acc) acc = acc := by
    intro l
    induction l with
    | nil => intro acc _; rfl
    | cons r t ih =>
      intro acc hall
      have hr : r.Expr.ExtractPositiveKeywords = [] := hall r (List.mem_cons_self r t)
      have step : (r.Expr.ExtractPositiveKeywords.map lowerStr).foldl insertUniq acc = acc := by
        rw [hr]; rfl
      simp only [List.foldl_cons, step]
      exact ih acc (fun r' hr' => hall r' (List.mem_cons_of_mem r hr'))
  exact key rs [] h

theorem evalRules_eq_find (P D : List String) :
    ∀ rs : List Rule, evalRules P D rs =
      ((rs.filter (fun r => r.Enabled)).find?
          (fun r => r.Expr.Evaluate (specRuleLocalSet P D r))).map
        (fun r => { RuleName := r.Name, Priority := r.Priority, Keywords := P }) := by
  intro rs
  induction rs with
  | nil => rfl
  | cons r rest ih =>
    unfold evalRules
    dsimp only
    by_cases hr : r.Enabled
    · rw [List.filter_cons_of_pos (by simpa using hr)]
      rw [List.find?_cons]
      simp only [hr, Bool.not_true, Bool.false_eq_true, if_false]
      have hfold : (P ++ List.filter (fun notKw => D.any fun d => strContains (lowerStr d) notKw)
          (List.filter (fun kw => !(List.map lowerStr r.Expr.ExtractPositiveKeywords).contains kw)
            (List.map lowerStr r.Expr.ExtractKeywords))) = specRuleLocalSet P D r := rfl
      rw [hfold]
      by_cases hev : r.Expr.Evaluate (specRuleLocalSet P D r) = true
      · rw [if_pos hev, hev]
        rfl
      · rw [if_neg hev, Bool.eq_false_iff.2 hev]
        exact ih
    · rw [List.filter_cons_of_neg (by simpa using hr)]
      simp only [Bool.not_eq_true] at hr
      rw [hr]
      simpa using ih

/-- C1: for every engine, non-empty positive-keyword set `P` and domain
list `D`, `Evaluate` visits rules in engine order skipping disabled ones,
forms for each visited rule the rule-local set `E` (`P` plus every
lower-cased NOT-keyword of that rule occurring as a literal substring of
some lower-cased domain of `D`), and returns, for the first rule whose
AST evaluates true on `E`, a `RuleMatch` with that rule's name, priority
and the full set `P`; `none` when no enabled rule fires.  Stated as
agreement with the specification-side `EvaluateSpec`. -/
theorem evaluate_follows_spec (e : Engine) (P D : List String) (h : P ≠ []) :
    e.Evaluate P D = EvaluateSpec e P D := by
  have hP : P.isEmpty = false := by
    cases P with
    | nil => exact absurd rfl h
    | cons a t => rfl
  unfold Engine.Evaluate EvaluateSpec
  rw [hP]
  cases hR : e.Rules with
  | nil => rfl
  | cons r rest =>
    simp only [List.isEmpty_cons, Bool.false_or, Bool.false_eq_true, if_false]
    exact evalRules_eq_find P D (r :: rest)

/-- Witness for `evaluate_follows_spec` at the demo engine. -/
theorem evaluate_follows_spec_witness :
    (["login"] : List String) ≠ [] ∧
      demoEngine.Evaluate ["login"] ["login.example.com"] =
        EvaluateSpec demoEngine ["login"] ["login.example.com"] :=
  ⟨by decide, evaluate_follows_spec demoEngine ["login"] ["login.example.com"] (by decide)⟩

/-- C2: on the engine of the single enabled rule
`(twitter OR x.com) AND (login OR signin OR verify OR suspended) AND NOT
(twitter.com OR t.co)`, `Find` followed by `Evaluate` yields no match for
marriott-bet.com, authenticator.com, detector.com and login.twitter.com,
and a match for login.twomaverix.com, signin.okx.com and
suspended.mytwitter.net. -/
theorem twitter_rule_regression :
    findThenEvaluate twitterEngine "marriott-bet.com" = none ∧
    findThenEvaluate twitterEngine "authenticator.com" = none ∧
    findThenEvaluate twitterEngine "detector.com" = none ∧
    findThenEvaluate twitterEngine "login.twitter.com" = none ∧
    (findThenEvaluate twitterEngine "login.twomaverix.com").isSome = true ∧
    (findThenEvaluate twitterEngine "signin.okx.com").isSome = true ∧
    (findThenEvaluate twitterEngine "suspended.mytwitter.net").isSome = true := by
  decide

/-- C3, counterexample: in `NOT NOT a` the keyword `a` lies on a path
crossing an even number (two) of `Not` nodes, yet `ExtractPositiveKeywords`
does not return it — `NotExpr` contributes the empty list regardless of
nesting depth. -/
theorem extractPositive_even_parity_fails :
    (∃ n, Even n ∧
      appearsUnderNots (.NotExpr (.NotExpr (.KeywordExpr "a"))) "a" n) ∧
    "a" ∉ (Expression.NotExpr (.NotExpr (.KeywordExpr "a"))).ExtractPositiveKeywords :=
  ⟨⟨2, ⟨1, rfl⟩, .under (.under (.kw "a"))⟩, by simp [Expression.ExtractPositiveKeywords]⟩

/-- C3, amended: `ExtractPositiveKeywords` returns exactly the leaf
keywords on paths crossing zero `Not` nodes (keywords under any `Not`
contribute nothing, whatever the nesting parity). -/
theorem extractPositive_zero_nots (e : Expression) (k : String) :
    k ∈ e.ExtractPositiveKeywords ↔ appearsUnderNots e k 0 := by
  induction e with
  | KeywordExpr k0 =>
    simp only [Expression.ExtractPositiveKeywords, List.mem_singleton]
    constructor
    · rintro rfl
      exact .kw k
    · rintro ⟨⟩
      rfl
  | AndExpr l r ihl ihr =>
    simp only [Expression.ExtractPositiveKeywords, List.mem_append, ihl, ihr]
    constructor
    · rintro (h | h)
      · exact .andL h
      · exact .andR h
    · rintro (⟨⟩ | _)
      case andL h => exact Or.inl h
      case andR h => exact Or.inr h
  | OrExpr l r ihl ihr =>
    simp only [Expression.ExtractPositiveKeywords, List.mem_append, ihl, ihr]
    constructor
    · rintro (h | h)
      · exact .orL h
      · exact .orR h
    · rintro (⟨⟩ | _)
      case orL h => exact Or.inl h
      case orR h => exact Or.inr h
  | NotExpr e ih =>
    simp only [Expression.ExtractPositiveKeywords, List.not_mem_nil, false_iff]
    rintro ⟨⟩

set_option maxRecDepth 1000000 in
/-- C4: evaluating `SortRulesByPriority` (Go `sort.Slice`, a
pattern-defeating quicksort) on thirteen rules with alternating
`low`/`critical` priorities: the critical rule `r9` is moved ahead of the
critical rules `r1, r3, r5, r7` although they precede it in source order —
the sort is not stable, contradicting the claimed tie-breaking by source
order. -/
theorem sortRulesByPriority_unstable :
    (SortRulesByPriority c4Rules).map (fun r => r.Name) =
      ["r9", "r1", "r3", "r5", "r7", "r11", "r2", "r4", "r6", "r8", "r0", "r10", "r12"] := by
  rfl

/-- C5: the parser gives `NOT` precedence over `AND` over `OR`, left
associativity for `AND`/`OR`, right-associative stacking for `NOT`,
parenthesized grouping, and lower-cases keyword leaves. -/
theorem parse_precedence_and_grouping :
    Parse "a AND b OR c" =
      .ok (.OrExpr (.AndExpr (.KeywordExpr "a") (.KeywordExpr "b")) (.KeywordExpr "c")) ∧
    Parse "a AND (b OR c)" =
      .ok (.AndExpr (.KeywordExpr "a") (.OrExpr (.KeywordExpr "b") (.KeywordExpr "c"))) ∧
    Parse "a OR b OR c" =
      .ok (.OrExpr (.OrExpr (.KeywordExpr "a") (.KeywordExpr "b")) (.KeywordExpr "c")) ∧
    Parse "a AND b AND c" =
      .ok (.AndExpr (.AndExpr (.KeywordExpr "a") (.KeywordExpr "b")) (.KeywordExpr "c")) ∧
    Parse "NOT NOT a" = .ok (.NotExpr (.NotExpr (.KeywordExpr "a"))) ∧
    Parse "NOT a AND b" = .ok (.AndExpr (.NotExpr (.KeywordExpr "a")) (.KeywordExpr "b")) ∧
    Parse "AbC" = .ok (.KeywordExpr "abc") :=
  ⟨rfl, rfl, rfl, rfl, rfl, rfl, rfl⟩

/-- C6, counterexample: a present rule file whose YAML decodes to an empty
rule list does NOT yield a valid empty engine — `LoadRules` calls
`BuildAhoCorasick` unconditionally, which fails with the no-keywords
error. -/
theorem loadRules_empty_list_errors :
    LoadRules (some []) = .error "failed to build Aho-Corasick: no keywords found in rules" :=
  rfl

/-- C6, amended: whenever every rule entry parses and the union of
positive keywords over the parsed rules is empty — the empty rule list
included — `LoadRules` on a present file fails with the no-keywords
error; only an absent rule file yields the empty engine without error. -/
theorem loadRules_noKeywords (cfgs : List RuleConfig)
    (h : ∀ p ∈ cfgs.enum,
      ((parseRule p.2 p.1).toOption.map (fun r => r.Expr.ExtractPositiveKeywords)) = some []) :
    LoadRules (some cfgs) = .error "failed to build Aho-Corasick: no keywords found in rules" ∧
    LoadRules none = .ok NewEmptyEngine := by
  refine ⟨?_, rfl⟩
  unfold LoadRules
  dsimp only
  have herr : (cfgs.enum.map (fun p => (p.1, p.2, parseRule p.2 p.1))).filterMap
      (fun r => match r.2.2 with
        | .error e => some ("rule " ++ toString r.1 ++ " (" ++ r.2.1.Name ++ "): " ++ e)
        | .ok _ => none) = [] := by
    rw [List.filterMap_eq_nil]
    intro a ha
    rcases List.mem_map.1 ha with ⟨p, hp, rfl⟩
    have hph := h p hp
    cases hpr : parseRule p.2 p.1 with
    | error e => rw [hpr] at hph; simp [Except.toOption] at hph
    | ok r => simp [hpr]
  rw [herr]
  rw [if_neg (by decide)]
  have hrules : ∀ r ∈ (cfgs.enum.map (fun p => (p.1, p.2, parseRule p.2 p.1))).filterMap
      (fun r => r.2.2.toOption), r.Expr.ExtractPositiveKeywords = [] := by
    intro r hr
    rcases List.mem_filterMap.1 hr with ⟨a, ha, hval⟩
    rcases List.mem_map.1 ha with ⟨p, hp, rfl⟩
    have hph := h p hp
    cases hpr : parseRule p.2 p.1 with
    | error e => rw [hpr] at hval; simp [Except.toOption] at hval
    | ok r0 =>
      rw [hpr] at hval hph
      have h2 : r0.Expr.ExtractPositiveKeywords = [] := by
        simpa [Except.toOption] using hph
      have h3 : r0 = r := by
        simpa [Except.toOption] using hval
      rw [← h3]
      exact h2
  have hsorted : ∀ r ∈ SortRulesByPriority
      ((cfgs.enum.map (fun p => (p.1, p.2, parseRule p.2 p.1))).filterMap
        (fun r => r.2.2.toOption)), r.Expr.ExtractPositiveKeywords = [] := by
    intro r hr
    rcases expr_mem_SortRulesByPriority hr with ⟨r0, hr0, hexpr⟩
    rw [hexpr]
    exact hrules r0 hr0
  have hbuild : Engine.BuildAhoCorasick
      { Rules := SortRulesByPriority
          ((cfgs.enum.map (fun p => (p.1, p.2, parseRule p.2 p.1))).filterMap
            (fun r => r.2.2.toOption)),
        Machine := [], Keywords := [] } = .error "no keywords found in rules" := by
    unfold Engine.BuildAhoCorasick
    dsimp only
    rw [extractAll_eq_nil hsorted]
    rfl
  rw [hbuild]
  rfl

/-- Witness configuration for the no-keywords load failure: its expression
consists of a single NOT clause, so it has no positive keyword. -/
def noPositiveConfig : RuleConfig :=
  { Name := "no-pos", Keywords := "NOT official", Priority := "low",
    Enabled := true, Comment := "" }

/-- Witness for `loadRules_noKeywords` at a one-rule file with no positive
keywords. -/
theorem loadRules_noKeywords_witness :
    (∀ p ∈ [noPositiveConfig].enum,
      ((parseRule p.2 p.1).toOption.map (fun r => r.Expr.ExtractPositiveKeywords)) = some []) ∧
    (LoadRules (some [noPositiveConfig]) =
        .error "failed to build Aho-Corasick: no keywords found in rules" ∧
      LoadRules none = .ok NewEmptyEngine) :=
  ⟨by decide, loadRules_noKeywords [noPositiveConfig] (by decide)⟩

/-- C7: `ReloadRules` stores the freshly built engine only when the whole
load succeeds; when loading or parsing fails, the published engine
reference is left unchanged and the error is reported (HTTP 500). -/
theorem reload_preserves_engine_on_failure (file : Option (List RuleConfig))
    (published : Option Engine) :
    (∀ msg, LoadRules file = .error msg → ReloadRules file published = (published, 500)) ∧
    (∀ eng, LoadRules file = .ok eng → ReloadRules file published = (some eng, 200)) := by
  constructor
  · intro msg hm
    unfold ReloadRules
    rw [hm]
  · intro eng he
    unfold ReloadRules
    rw [he]

/-- Witness for `reload_preserves_engine_on_failure`: a failing load keeps
the demo engine published; a successful (absent-file) load publishes the
new engine. -/
theorem reload_preserves_engine_on_failure_witness :
    (LoadRules (some []) = .error "failed to build Aho-Corasick: no keywords found in rules" ∧
      ReloadRules (some []) (some demoEngine) = (some demoEngine, 500)) ∧
    (LoadRules none = .ok NewEmptyEngine ∧
      ReloadRules none (some demoEngine) = (some NewEmptyEngine, 200)) :=
  ⟨⟨rfl, (reload_preserves_engine_on_failure (some []) (some demoEngine)).1 _ rfl⟩,
    ⟨rfl, (reload_preserves_engine_on_failure none (some demoEngine)).2 _ rfl⟩⟩

/-- C8: the webhook handler answers 405 to non-POST, 400 to an unreadable
or non-JSON body, otherwise 200 with `matches` equal to the number of
distinct positive keywords the automaton finds over the expanded domain
list; and the status and count are independent of whether the match bus
has room (a full bus only drops the record). -/
theorem hook_contract (method : String) (body : Option CertspotterEvent)
    (engine : Option Engine) (toA toU : String → Option String) :
    (method ≠ "POST" → ∀ busHasRoom, Hook method body engine toA toU busHasRoom =
      { status := 405, matchesVal := none, published := false }) ∧
    (method = "POST" → body = none → ∀ busHasRoom, Hook method body engine toA toU busHasRoom =
      { status := 400, matchesVal := none, published := false }) ∧
    (∀ event e busHasRoom, method = "POST" → body = some event → engine = some e →
      (Hook method body engine toA toU busHasRoom).status = 200 ∧
      (Hook method body engine toA toU busHasRoom).matchesVal =
        some (e.Find (expandDomains toA toU (hookAllDomains event))).length) ∧
    (∀ b1 b2,
      (Hook method body engine toA toU b1).status = (Hook method body engine toA toU b2).status ∧
      (Hook method body engine toA toU b1).matchesVal =
        (Hook method body engine toA toU b2).matchesVal) := by
  refine ⟨?_, ?_, ?_, ?_⟩
  · intro hm busHasRoom
    unfold Hook
    rw [if_pos (by simpa using hm)]
  · intro hm hb busHasRoom
    subst hb
    unfold Hook
    rw [if_neg (by simpa using hm)]
  · intro event e busHasRoom hm hb he
    subst hb
    subst he
    unfold Hook
    rw [if_neg (by simpa using hm)]
    exact ⟨rfl, rfl⟩
  · intro b1 b2
    unfold Hook
    split
    · exact ⟨rfl, rfl⟩
    · split
      · exact ⟨rfl, rfl⟩
      · split
        · exact ⟨rfl, rfl⟩
        · exact ⟨rfl, rfl⟩

/-- Witness for `hook_contract`: wrong method, bad body, and a successful
ingest on the disabled-rule engine. -/
theorem hook_contract_witness :
    Hook "GET" none none (fun _ => none) (fun _ => none) true =
      { status := 405, matchesVal := none, published := false } ∧
    Hook "POST" none none (fun _ => none) (fun _ => none) true =
      { status := 400, matchesVal := none, published := false } ∧
    (Hook "POST" (some disabledDemoEvent) (some disabledEngine)
      (fun _ => none) (fun _ => none) true).status = 200 :=
  ⟨(hook_contract "GET" none none (fun _ => none) (fun _ => none)).1 (by decide) true,
    (hook_contract "POST" none none (fun _ => none) (fun _ => none)).2.1 rfl rfl true,
    ((hook_contract "POST" (some disabledDemoEvent) (some disabledEngine)
        (fun _ => none) (fun _ => none)).2.2.1
      disabledDemoEvent disabledEngine true rfl rfl rfl).1⟩

theorem insertOrIgnore_of_any (p : List MatchRow) (row : MatchRow)
    (h : p.any (fun r => r.certId = row.certId && r.keyword = row.keyword) = true) :
    insertOrIgnore p row = p := by
  unfold insertOrIgnore
  rw [if_pos h]

theorem countPair_pos_iff_any (p : List MatchRow) (c k : String) :
    (p.any (fun r => r.certId = c && r.keyword = k)) = true ↔ 0 < countPair p c k := by
  unfold countPair
  rw [List.any_eq_true, List.length_pos]
  constructor
  · rintro ⟨r, hr, hpred⟩ hnil
    have : r ∈ ([] : List MatchRow) := hnil ▸ List.mem_filter.2 ⟨hr, hpred⟩
    simp at this
  · intro hne
    rcases List.exists_mem_of_ne_nil _ hne with ⟨r, hr⟩
    rcases List.mem_filter.1 hr with ⟨hmem, hpred⟩
    exact ⟨r, hmem, hpred⟩

/-- C9: inserting two match records carrying the same `(cert_id, keyword)`
pair into a partition that respects the uniqueness constraint leaves
exactly one record with that pair — the duplicate `INSERT OR IGNORE` is
ignored, not an error. -/
theorem store_duplicate_pair_idempotent (part : List MatchRow) (m m2 : MatchRow)
    (hc : m2.certId = m.certId) (hk : m2.keyword = m.keyword)
    (hinv : countPair part m.certId m.keyword ≤ 1) :
    countPair (storeSingleTable part [m, m2]) m.certId m.keyword = 1 := by
  unfold storeSingleTable
  simp only [List.foldl_cons, List.foldl_nil]
  have h1 : countPair (insertOrIgnore part m) m.certId m.keyword = 1 := by
    unfold insertOrIgnore
    by_cases hany : part.any (fun r => r.certId = m.certId && r.keyword = m.keyword) = true
    · rw [if_pos hany]
      have hpos := (countPair_pos_iff_any part m.certId m.keyword).1 hany
      omega
    · rw [if_neg hany]
      have h0 : countPair part m.certId m.keyword = 0 := by
        by_contra hne
        exact hany ((countPair_pos_iff_any part m.certId m.keyword).2 (by omega))
      unfold countPair at h0 ⊢
      rw [List.filter_append, List.length_append, h0]
      simp
  have hany2 : (insertOrIgnore part m).any
      (fun r => r.certId = m2.certId && r.keyword = m2.keyword) = true := by
    rw [hc, hk]
    exact (countPair_pos_iff_any _ m.certId m.keyword).2 (by omega)
  rw [insertOrIgnore_of_any _ _ hany2]
  exact h1

/-- Duplicate match rows for the idempotence witness: same
`(cert_id, keyword)` pair, different rule fields. -/
def rowA : MatchRow :=
  { certId := "cert-9", keyword := "login", matchedRule := "r-a", priority := "high",
    domains := "[]", tbsSha256 := "", certSha256 := "", timestamp := "2026-10-11 00:00:00" }

/-- Second row of the idempotence witness. -/
def rowB : MatchRow :=
  { rowA with matchedRule := "r-b", priority := "low" }

/-- Witness for `store_duplicate_pair_idempotent` on an empty partition. -/
theorem store_duplicate_pair_idempotent_witness :
    rowB.certId = rowA.certId ∧ rowB.keyword = rowA.keyword ∧
      countPair [] rowA.certId rowA.keyword ≤ 1 ∧
      countPair (storeSingleTable [] [rowA, rowB]) rowA.certId rowA.keyword = 1 :=
  ⟨rfl, rfl, by decide,
    store_duplicate_pair_idempotent [] rowA rowB rfl rfl (by decide)⟩

/-- C10: the automaton keyword set ignores the `Enabled` flag — it is the
union of lower-cased positive keywords over all rules, disabled ones
included — and consequently `Find` (hence the webhook `matches` count)
reports keywords belonging only to disabled rules: the demo engine's one
rule is disabled, yet `Find` reports `login` and the webhook answers
`matches = 1`. -/
theorem automaton_includes_disabled_rules :
    (∀ (rs : List Rule) (m k : List String) (f : Rule → Bool),
      Engine.ExtractAllKeywords
          { Rules := rs.map (fun r => { r with Enabled := f r }), Machine := m, Keywords := k } =
        Engine.ExtractAllKeywords { Rules := rs, Machine := m, Keywords := k }) ∧
    disabledEngine.Rules.all (fun r => !r.Enabled) = true ∧
    disabledEngine.Find ["login.example.com"] = ["login"] ∧
    (Hook "POST" (some disabledDemoEvent) (some disabledEngine)
      (fun _ => none) (fun _ => none) true).matchesVal = some 1 := by
  refine ⟨?_, by decide, by decide, by decide⟩
  intro rs m k f
  unfold Engine.ExtractAllKeywords
  dsimp only
  rw [List.foldl_map]

end Canary
